import Mathlib

/-!
# string-expand: a shallow embedding of `expand_string`

The repository holds two implementations of one routine, `expand_string`, which
replaces every `${NAME}` of its input by `getenv(NAME)` and then rewrites the
foreign path separator into the native one:

* `src/GPL/string-expand.c` accumulates the output in a growable `dyn_string`;
* `src/MIT/string-expand.c` accumulates it in a fixed `string_t` of 100
  characters that is flushed into a heap string with `asprintf`.

Modelling conventions.

* A C string is the `List Char` of the bytes before its terminating NUL. A
  `char *` that walks through a string (the cursor `p`) is the suffix of the
  string that starts at the cursor; `&s[i]` is `s.drop i`, and reading one past
  the last character (`p[1]` on the last character) reads the NUL, which is
  `head?` giving `none`.
* `int len = strlen(str)` of `expand_string` is modelled with its conversion
  to 32 bits (`int_len`): the scan loop runs from `s` to `s + len`, which is
  the end of the string only when the string is shorter than `2^31` bytes.
  The other lengths and indices (`int i`, `uint32_t len` of `replace_slash`,
  the length of the `dyn_string`) are `Nat`; they agree with the source
  wherever the source is defined.
* `getenv` is a parameter: a function from names to optional values.
* `slash` and `bad_slash`, which the source fixes per platform with the
  preprocessor, are parameters.
* Standard output is a list of the strings printed, in order.
* Allocation (`malloc`, `strdup`, `asprintf`, `dyn_string_new`) succeeds.
-/

namespace StringExpand

/-! ## Code shared by both files -/

/-- The loop of `replace_slash`, entered with index `i` at the characters
`s[i..]`. It yields the rewritten characters and what the loop printed:
`if (s[i] == bad_slash) s[i] = slash; if (i > 100) printf("bad i\n");`. -/
def replace_slash_loop (slash bad_slash : Char) : Nat → List Char → List Char × List String
  | _, [] => ([], [])
  | i, c :: cs =>
    let c1 := if c = bad_slash then slash else c
    let out := if i > 100 then ["bad i\n"] else []
    let r := replace_slash_loop slash bad_slash (i + 1) cs
    (c1 :: r.1, out ++ r.2)

/-- The function `replace_slash(s)`: the string it returns (the argument,
rewritten in place) and what it printed. -/
def replace_slash (slash bad_slash : Char) (s : List Char) : List Char × List String :=
  replace_slash_loop slash bad_slash 0 s

/-- The `for (i = 2; i < len; i++)` loop of `parse_environment_variable`,
entered with index `i` at the characters `s[i..]`: the index of the first
`'}'`, if the loop finds one before the end of the string. -/
def find_close : Nat → List Char → Option Nat
  | _, [] => none
  | i, c :: cs => if c = '}' then some i else find_close (i + 1) cs

/-- The function `parse_environment_variable(s, &next)`: the returned pointer
(`none` is `NULL`) and the offset of `*next` from `s`. When `s` starts with
`${` and a `'}'` follows at index `i`, the name `s[2..i)` is looked up and
`*next = &s[i]`; otherwise `*next = s` and the result is `NULL`. -/
def parse_environment_variable (getenv : List Char → Option (List Char)) (s : List Char) :
    Option (List Char) × Nat :=
  match s with
  | '$' :: '{' :: rest =>
    match find_close 2 rest with
    | some i => (getenv ((s.drop 2).take (i - 2)), i)
    | none => (none, 0)
  | _ => (none, 0)

/-- The value of `int len = strlen(str)` in `expand_string`: the conversion of
the length to `int` keeps its low 32 bits and reads them in two's complement. -/
def int_len (str : List Char) : Int :=
  if str.length % 2 ^ 32 < 2 ^ 31 then ((str.length % 2 ^ 32 : Nat) : Int)
  else ((str.length % 2 ^ 32 : Nat) : Int) - 2 ^ 32

/-! ## `src/GPL/string-expand.c` -/

namespace GPL

/-- One pass through the body of the `for (p = s; p < endp; p++)` loop of
`expand_string`, with the cursor at the non-empty suffix `c :: cs` and the
`dyn_string` holding `buf`: the offset of the cursor at the end of the body
(before `p++`) and the new content of the `dyn_string`. -/
def expand_body (getenv : List Char → Option (List Char)) (c : Char) (cs : List Char)
    (buf : List Char) : Nat × List Char :=
  if c = '$' ∧ cs.head? = some '{' then
    let r := parse_environment_variable getenv (c :: cs)
    match r.1 with
    | some env => (r.2, buf ++ env)
    | none => (r.2, buf ++ [c])
  else
    (0, buf ++ [c])

/-- The `for (p = s; p < endp; p++)` loop of `expand_string`, entered with the
cursor at suffix `p`, with `n` bytes from the cursor to `endp` (`n = 0` when
the cursor is at or behind `endp`) and the `dyn_string` holding `buf`; it
yields the final content of the `dyn_string`. `endp` is never behind the end of
the string, so the second case does not arise in a run of `expand_string`. -/
def expand_loop_until (getenv : List Char → Option (List Char)) :
    Nat → List Char → List Char → List Char
  | 0, _, buf => buf
  | _ + 1, [], buf => buf
  | n + 1, c :: cs, buf =>
    let r := expand_body getenv c cs buf
    expand_loop_until getenv (n - r.1) ((c :: cs).drop (r.1 + 1)) r.2
termination_by n _ _ => n
decreasing_by omega

/-- The same loop when `endp` is the end of the string, written as a recursion
on the remaining input: it is `expand_loop_until` with `n` the length of `p`
(`expand_loop_until_eq`). -/
def expand_loop (getenv : List Char → Option (List Char)) : List Char → List Char → List Char
  | [], buf => buf
  | c :: cs, buf =>
    let r := expand_body getenv c cs buf
    expand_loop getenv ((c :: cs).drop (r.1 + 1)) r.2
termination_by p _ => p.length
decreasing_by simp; omega

/-- The function `expand_string(str)` of the growable-buffer file: the string
it returns and what it printed. -/
def expand_string (slash bad_slash : Char) (getenv : List Char → Option (List Char))
    (str : List Char) : List Char × List String :=
  let len := int_len str
  if len = 0 then ([], [])
  else replace_slash slash bad_slash (expand_loop_until getenv len.toNat str [])

end GPL

/-! ## `src/MIT/string-expand.c` -/

namespace MIT

/-- The constant `MAX_STRING`. -/
def MAX_STRING : Nat := 100

/-- The type `string_t`: the index `ix` and the array `char data[MAX_STRING+1]`. -/
structure string_t where
  ix : Nat
  data : List Char
  size : data.length = MAX_STRING + 1

/-- A `char` array read as a C string (`%s`): the bytes before the first NUL. -/
def cstr (data : List Char) : List Char :=
  data.takeWhile (fun c => c ≠ '\x00')

/-- The function `append(s, c)`: when `ix < MAX_STRING`, store `c` at `data[ix]`,
a NUL at `data[ix+1]`, and increment `ix`; otherwise do nothing. -/
def append (s : string_t) (c : Char) : string_t :=
  let ix := s.ix
  if ix < MAX_STRING then
    { ix := s.ix + 1
      data := (s.data.set ix c).set (ix + 1) '\x00'
      size := by simp [s.size] }
  else s

/-- The function `clear(s)`: `ix = 0` and `data[0] = NUL`. -/
def clear (s : string_t) : string_t :=
  { ix := 0
    data := s.data.set 0 '\x00'
    size := by simp [s.size] }

/-- The function `max_string_size(s)`: `ix >= MAX_STRING`. -/
def max_string_size (s : string_t) : Bool :=
  decide (s.ix ≥ MAX_STRING)

/-- The call `asprintf(&tmp, "%s%s%s", a, b, c)`: the allocated concatenation
(`none` is the status `-1`, which an allocation that succeeds never gives). -/
def asprintf (a b c : List Char) : Option (List Char) :=
  some (a ++ b ++ c)

/-- The function `expand(&result, buf, env)`: its return value, the new
`*result` (`none` is `NULL`) and the new `*buf`. -/
def expand (result : Option (List Char)) (buf : string_t) (env : Option (List Char)) :
    Bool × Option (List Char) × string_t :=
  let _result := result.getD []
  let _env := env.getD []
  match asprintf _result (cstr buf.data) _env with
  | some tmp => (true, some tmp, clear buf)
  | none => (false, result, buf)

/-- The first half of the loop body of `expand_string` (the `if` on the
trigger `${`): the offset of the cursor, `result`, `buf` and `push`. -/
def expand_trigger (getenv : List Char → Option (List Char)) (c : Char) (cs : List Char)
    (result : Option (List Char)) (buf : string_t) :
    Nat × Option (List Char) × string_t × Bool :=
  if c = '$' ∧ cs.head? = some '{' then
    let r := parse_environment_variable getenv (c :: cs)
    match r.1 with
    | some env =>
      let e := expand result buf (some env)
      if e.1 then (r.2, e.2.1, clear e.2.2, false) else (r.2, e.2.1, e.2.2, true)
    | none => (r.2, result, buf, true)
  else
    (0, result, buf, true)

/-- The second half of the loop body of `expand_string` (`if (push)`): append
`c`, and flush the buffer into `result` when it is full. -/
def expand_push (c : Char) (result : Option (List Char)) (buf : string_t) (push : Bool) :
    Option (List Char) × string_t :=
  if push then
    let buf1 := append buf c
    if max_string_size buf1 then
      let e := expand result buf1 none
      if e.1 then (e.2.1, clear e.2.2) else (e.2.1, e.2.2)
    else (result, buf1)
  else (result, buf)

/-- One pass through the body of the `for (p = s; p < endp; p++)` loop of
`expand_string`, with the cursor at the non-empty suffix `c :: cs`: the offset
of the cursor at the end of the body (before `p++`), `result` and `buf`. -/
def expand_body (getenv : List Char → Option (List Char)) (c : Char) (cs : List Char)
    (result : Option (List Char)) (buf : string_t) : Nat × Option (List Char) × string_t :=
  let t := expand_trigger getenv c cs result buf
  (t.1, expand_push c t.2.1 t.2.2.1 t.2.2.2)

/-- The `for (p = s; p < endp; p++)` loop of `expand_string`, entered with the
cursor at suffix `p` and with `n` bytes from the cursor to `endp` (`n = 0` when
the cursor is at or behind `endp`); it yields the final `result` and `buf`.
`endp` is never behind the end of the string, so the second case does not
arise in a run of `expand_string`. -/
def expand_loop_until (getenv : List Char → Option (List Char)) :
    Nat → List Char → Option (List Char) → string_t → Option (List Char) × string_t
  | 0, _, result, buf => (result, buf)
  | _ + 1, [], result, buf => (result, buf)
  | n + 1, c :: cs, result, buf =>
    let r := expand_body getenv c cs result buf
    expand_loop_until getenv (n - r.1) ((c :: cs).drop (r.1 + 1)) r.2.1 r.2.2
termination_by n _ _ _ => n
decreasing_by omega

/-- The same loop when `endp` is the end of the string, written as a recursion
on the remaining input: it is `expand_loop_until` with `n` the length of `p`
(`loop_until_eq`). -/
def expand_loop (getenv : List Char → Option (List Char)) :
    List Char → Option (List Char) → string_t → Option (List Char) × string_t
  | [], result, buf => (result, buf)
  | c :: cs, result, buf =>
    let r := expand_body getenv c cs result buf
    expand_loop getenv ((c :: cs).drop (r.1 + 1)) r.2.1 r.2.2
termination_by p _ _ => p.length
decreasing_by simp; omega

/-- The function `expand_string(str)` of the fixed-buffer file, run with the
local `string_t buf` holding `buf` on entry (it is not initialised by its
declaration): the string it returns and what it printed; `none` is the call
`replace_slash(NULL)`. -/
def expand_string (slash bad_slash : Char) (getenv : List Char → Option (List Char))
    (buf : string_t) (str : List Char) : Option (List Char × List String) :=
  let len := int_len str
  if len = 0 then some ([], [])
  else
    let st := expand_loop_until getenv len.toNat str none (clear buf)
    let e := expand st.1 st.2 none
    let result := e.2.1
    match result with
    | some r => some (replace_slash slash bad_slash r)
    | none => none

end MIT

/-! ## Definitions in the words of the specification, and concrete inputs -/

/-- The normalizer of the specification (section 4.2), in its words: every
character equal to the foreign separator is replaced with the separator, all
other characters are unchanged. -/
def normalize (slash bad_slash : Char) (s : List Char) : List Char :=
  s.map (fun c => if c = bad_slash then slash else c)

/-- The representation invariant of the fixed buffer: `buf` holds the text `l`
when `ix` is the length of `l`, the array starts with `l`, a NUL follows it, and
`l` has no NUL of its own. -/
def MIT.Holds (buf : MIT.string_t) (l : List Char) : Prop :=
  buf.ix = l.length ∧ '\x00' ∉ l ∧ ∃ rest, buf.data = l ++ '\x00' :: rest

/-- The recognized placeholders of an input, in the words of the invariant of
section 3 of the specification: the `${name}` occurrences found by the
left-to-right scan, each closed by the first closing brace after its `${`. The
names are listed in the order of the scan. -/
def recognized_placeholders : List Char → List (List Char)
  | [] => []
  | [_] => []
  | c :: d :: rest =>
    let name := rest.takeWhile (fun x => x ≠ '}')
    if c = '$' ∧ d = '{' ∧ name.length < rest.length then
      name :: recognized_placeholders (rest.drop (name.length + 1))
    else recognized_placeholders (d :: rest)
termination_by p => p.length
decreasing_by all_goals (simp only [List.length_cons, List.length_drop]; omega)

/-- The length that the invariant of section 3 of the specification gives to the
result: the input length, minus the markup of the recognized placeholders (name
and the three characters `$`, `{`, `}`), plus the length of the looked-up
values (0 when the lookup is not-found). -/
def accounted_length (getenv : List Char → Option (List Char)) (input : List Char) : Nat :=
  input.length - ((recognized_placeholders input).map (fun n => n.length + 3)).sum
    + ((recognized_placeholders input).map (fun n => ((getenv n).getD []).length)).sum

/-- The environment that `main` sets up: `setenv("RESULT", "Success", 1)`. -/
def main_env : List Char → Option (List Char) :=
  fun n => if n = "RESULT".toList then some "Success".toList else none

/-- An environment without any variable. -/
def empty_env : List Char → Option (List Char) :=
  fun _ => none

/-- An environment with two variables, `A` holding the text of a placeholder
for `B`, and `B` holding a path with a backslash. -/
def nested_env : List Char → Option (List Char) :=
  fun n => if n = ['A'] then some ['$', '{', 'B', '}']
    else if n = ['B'] then some ['a', '\\', 'b'] else none

/-- A possible content of the local `string_t buf` of `expand_string` before
`clear` has run. -/
def stack_buf : MIT.string_t :=
  ⟨7, List.replicate 101 'x', by simp [MIT.MAX_STRING]⟩

/-- An environment in which the text `A${B` is the name of a variable, next to
the variables `A` and `B`. -/
def brace_env : List Char → Option (List Char) :=
  fun n => if n = ['A', '$', '{', 'B'] then some ['x', '\\', 'y']
    else if n = ['A'] then some ['1'] else if n = ['B'] then some ['2'] else none

/-- The `for (p = s; p < endp; p++)` loop of the growable-buffer
`expand_string`, stopped after at most `fuel` passes through its body: `none`
when the cursor has not reached the end of the input by then. -/
def GPL.expand_loop_fuel (getenv : List Char → Option (List Char)) :
    Nat → List Char → List Char → Option (List Char)
  | _, [], buf => some buf
  | 0, _ :: _, _ => none
  | fuel + 1, c :: cs, buf =>
    let r := GPL.expand_body getenv c cs buf
    GPL.expand_loop_fuel getenv fuel ((c :: cs).drop (r.1 + 1)) r.2

/-- The loop `expand_loop_until` of the growable-buffer `expand_string`, stopped
after at most `fuel` passes through its body: `none` when the cursor is still
in front of `endp` by then. -/
def GPL.expand_loop_until_fuel (getenv : List Char → Option (List Char)) :
    Nat → Nat → List Char → List Char → Option (List Char)
  | _, 0, _, buf => some buf
  | _, _ + 1, [], buf => some buf
  | 0, _ + 1, _ :: _, _ => none
  | fuel + 1, n + 1, c :: cs, buf =>
    let r := GPL.expand_body getenv c cs buf
    GPL.expand_loop_until_fuel getenv fuel (n - r.1) ((c :: cs).drop (r.1 + 1)) r.2

/-- The state invariant of the fixed buffer: `ix < MAX_STRING` and
`data[ix] = NUL`. -/
def MIT.buf_invariant (buf : MIT.string_t) : Prop :=
  buf.ix < MIT.MAX_STRING ∧ buf.data[buf.ix]? = some '\x00'

/-- The values of `buf` at the start of every iteration of the scan loop of the
fixed-buffer `expand_string`, in order, followed by its value after the loop. -/
def MIT.iteration_bufs (getenv : List Char → Option (List Char)) :
    List Char → Option (List Char) → MIT.string_t → List MIT.string_t
  | [], _, buf => [buf]
  | c :: cs, result, buf =>
    let r := MIT.expand_body getenv c cs result buf
    buf :: MIT.iteration_bufs getenv ((c :: cs).drop (r.1 + 1)) r.2.1 r.2.2
termination_by p _ _ => p.length
decreasing_by simp; omega

/-- The values of `buf` at the start of every iteration of the loop
`expand_loop_until` of the fixed-buffer `expand_string`, in order, followed by
its value after the loop. -/
def MIT.iteration_bufs_until (getenv : List Char → Option (List Char)) :
    Nat → List Char → Option (List Char) → MIT.string_t → List MIT.string_t
  | 0, _, _, buf => [buf]
  | _ + 1, [], _, buf => [buf]
  | n + 1, c :: cs, result, buf =>
    let r := MIT.expand_body getenv c cs result buf
    buf :: MIT.iteration_bufs_until getenv (n - r.1) ((c :: cs).drop (r.1 + 1)) r.2.1 r.2.2
termination_by n _ _ _ => n
decreasing_by omega

/-- A string of `2^31` letters `a`: the shortest length that `int len` does not
hold. -/
def long_run : List Char :=
  List.replicate (2 ^ 31) 'a'

theorem replace_slash_loop_fst (slash bad_slash : Char) (s : List Char) (i : Nat) :
    (replace_slash_loop slash bad_slash i s).1 = normalize slash bad_slash s := by
  induction s generalizing i with
  | nil => rfl
  | cons c cs ih => simp [replace_slash_loop, ih (i + 1), normalize]

theorem replace_slash_fst (slash bad_slash : Char) (s : List Char) :
    (replace_slash slash bad_slash s).1 = normalize slash bad_slash s :=
  replace_slash_loop_fst slash bad_slash s 0

theorem normalize_append (slash bad_slash : Char) (a b : List Char) :
    normalize slash bad_slash (a ++ b) = normalize slash bad_slash a ++ normalize slash bad_slash b := by
  simp [normalize]

theorem int_len_of_lt (str : List Char) (h : str.length < 2 ^ 31) :
    int_len str = (str.length : Int) := by
  have h1 : str.length % 2 ^ 32 = str.length := Nat.mod_eq_of_lt (by omega)
  simp only [int_len, h1, h, if_true]

theorem int_len_wrapped (str : List Char) (h : 2 ^ 31 ≤ str.length % 2 ^ 32) :
    int_len str < 0 := by
  have h2 : str.length % 2 ^ 32 < 2 ^ 32 := Nat.mod_lt _ (by norm_num)
  simp only [int_len, not_lt.mpr h, if_false]
  omega

theorem find_close_none (t : List Char) (i : Nat) (ht : '}' ∉ t) : find_close i t = none := by
  induction t generalizing i with
  | nil => rfl
  | cons c cs ih =>
    simp only [List.mem_cons, not_or] at ht
    have hc : c ≠ '}' := fun h => ht.1 h.symm
    simp [find_close, hc, ih (i + 1) ht.2]

theorem find_close_name (n r : List Char) (i : Nat) (hn : '}' ∉ n) :
    find_close i (n ++ '}' :: r) = some (i + n.length) := by
  induction n generalizing i with
  | nil => simp [find_close]
  | cons c cs ih =>
    simp only [List.mem_cons, not_or] at hn
    have hc : c ≠ '}' := fun h => hn.1 h.symm
    simp [find_close, hc, ih (i + 1) hn.2]
    omega

theorem find_close_bound (a : List Char) (i k : Nat) (h : find_close i a = some k) :
    i ≤ k ∧ k < i + a.length := by
  induction a generalizing i with
  | nil => simp [find_close] at h
  | cons c cs ih =>
    simp only [find_close] at h
    split at h
    · simp at h; subst h; simp
    · have := ih (i + 1) h
      simp; omega

theorem find_close_append_some (a b : List Char) (i k : Nat) (h : find_close i a = some k) :
    find_close i (a ++ b) = some k := by
  induction a generalizing i with
  | nil => simp [find_close] at h
  | cons c cs ih =>
    simp only [find_close, List.cons_append] at h ⊢
    split
    · rename_i hc; simpa [hc] using h
    · rename_i hc; simp only [hc, if_false] at h; exact ih (i + 1) h

theorem find_close_append_none (a b : List Char) (i : Nat) (h : find_close i a = none)
    (hb : '}' ∉ b) : find_close i (a ++ b) = none := by
  induction a generalizing i with
  | nil => simpa using find_close_none b i hb
  | cons c cs ih =>
    simp only [find_close, List.cons_append] at h ⊢
    split
    · rename_i hc; simp [hc] at h
    · rename_i hc; simp only [hc, if_false] at h; exact ih (i + 1) h

theorem parse_placeholder (getenv : List Char → Option (List Char)) (n r : List Char)
    (hn : '}' ∉ n) :
    parse_environment_variable getenv ('$' :: '{' :: (n ++ '}' :: r)) = (getenv n, n.length + 2) := by
  simp [parse_environment_variable, find_close_name n r 2 hn, Nat.add_comm]

theorem parse_unterminated (getenv : List Char → Option (List Char)) (t : List Char)
    (ht : '}' ∉ t) :
    parse_environment_variable getenv ('$' :: '{' :: t) = (none, 0) := by
  simp [parse_environment_variable, find_close_none t 2 ht]

/-! ## Lemmas on the growable-buffer loop -/

namespace GPL

theorem expand_body_buf (getenv : List Char → Option (List Char)) (c : Char)
    (cs buf : List Char) :
    expand_body getenv c cs buf
      = ((expand_body getenv c cs []).1, buf ++ (expand_body getenv c cs []).2) := by
  by_cases h : c = '$' ∧ cs.head? = some '{'
  · obtain ⟨rfl, h2⟩ := h
    cases hp : (parse_environment_variable getenv ('$' :: cs)).1 <;> simp [expand_body, h2, hp]
  · simp [expand_body, h]

theorem expand_loop_cons (getenv : List Char → Option (List Char)) (c : Char)
    (cs buf : List Char) :
    expand_loop getenv (c :: cs) buf
      = expand_loop getenv ((c :: cs).drop ((expand_body getenv c cs buf).1 + 1))
          (expand_body getenv c cs buf).2 := by
  rw [expand_loop]

theorem expand_loop_buf (getenv : List Char → Option (List Char)) (p buf : List Char) :
    expand_loop getenv p buf = buf ++ expand_loop getenv p [] := by
  generalize hlen : p.length = m
  induction m using Nat.strong_induction_on generalizing p buf with
  | _ m ih =>
    cases p with
    | nil => simp [expand_loop]
    | cons c cs =>
      rw [expand_loop_cons getenv c cs buf, expand_loop_cons getenv c cs [], expand_body_buf]
      have hlt : ((c :: cs).drop ((expand_body getenv c cs []).1 + 1)).length < m := by
        simp at hlen ⊢; omega
      rw [ih _ hlt _ _ rfl, ih _ hlt _ (expand_body getenv c cs []).2 rfl]
      simp

/-- A character that does not start `${` is copied and the cursor moves by one. -/
theorem expand_loop_literal_char (getenv : List Char → Option (List Char)) (c : Char)
    (cs buf : List Char) (h : ¬ (c = '$' ∧ cs.head? = some '{')) :
    expand_loop getenv (c :: cs) buf = expand_loop getenv cs (buf ++ [c]) := by
  rw [expand_loop_cons]
  simp [expand_body, h]

/-- A placeholder whose name is defined appends the value and moves the cursor
past the closing brace. -/
theorem expand_loop_known (getenv : List Char → Option (List Char)) (n v r buf : List Char)
    (hn : '}' ∉ n) (hv : getenv n = some v) :
    expand_loop getenv ('$' :: '{' :: (n ++ '}' :: r)) buf = expand_loop getenv r (buf ++ v) := by
  rw [expand_loop_cons]
  simp [expand_body, parse_placeholder getenv n r hn, hv]

/-- A placeholder whose name is not defined appends the `$` and moves the
cursor past the closing brace. -/
theorem expand_loop_unknown (getenv : List Char → Option (List Char)) (n r buf : List Char)
    (hn : '}' ∉ n) (hv : getenv n = none) :
    expand_loop getenv ('$' :: '{' :: (n ++ '}' :: r)) buf
      = expand_loop getenv r (buf ++ ['$']) := by
  rw [expand_loop_cons]
  simp [expand_body, parse_placeholder getenv n r hn, hv]

/-- A text in which no `$` is followed by `{` is copied. -/
theorem expand_loop_literal (getenv : List Char → Option (List Char)) (p buf : List Char)
    (h : ¬ ['$', '{'] <:+: p) : expand_loop getenv p buf = buf ++ p := by
  induction p generalizing buf with
  | nil => simp [expand_loop]
  | cons c cs ih =>
    have hc : ¬ (c = '$' ∧ cs.head? = some '{') := by
      rintro ⟨rfl, h2⟩
      cases cs with
      | nil => simp at h2
      | cons d ds =>
        simp at h2; subst h2
        exact h ⟨[], ds, by simp⟩
    have hcs : ¬ ['$', '{'] <:+: cs := fun hh => h (List.IsInfix.trans hh (List.suffix_cons c cs).isInfix)
    rw [expand_loop_literal_char getenv c cs buf hc, ih _ hcs]
    simp

/-- A text without a closing brace is copied: a `${` in it is never closed. -/
theorem expand_loop_no_close (getenv : List Char → Option (List Char)) (q buf : List Char)
    (h : '}' ∉ q) : expand_loop getenv q buf = buf ++ q := by
  induction q generalizing buf with
  | nil => simp [expand_loop]
  | cons c cs ih =>
    simp only [List.mem_cons, not_or] at h
    have step : expand_loop getenv (c :: cs) buf = expand_loop getenv cs (buf ++ [c]) := by
      by_cases hc : c = '$' ∧ cs.head? = some '{'
      · obtain ⟨rfl, h2⟩ := hc
        cases cs with
        | nil => simp at h2
        | cons d ds =>
          simp at h2; subst h2
          simp only [List.mem_cons, not_or] at h
          rw [expand_loop_cons]
          simp [expand_body, parse_unterminated getenv ds h.2.2]
      · exact expand_loop_literal_char getenv c cs buf hc
    rw [step, ih _ h.2]
    simp

theorem parse_append (getenv : List Char → Option (List Char)) (s rest : List Char)
    (hs : s ≠ []) (hrest : '}' ∉ rest) (hhead : rest.head? ≠ some '{') :
    parse_environment_variable getenv (s ++ rest) = parse_environment_variable getenv s := by
  match s, hs with
  | [c], _ =>
    cases rest with
    | nil => simp
    | cons d ds =>
      have hd : d ≠ '{' := by simpa using hhead
      by_cases hc : c = '$'
      · subst hc; simp [parse_environment_variable, hd]
      · simp [parse_environment_variable, hc]
  | c :: d :: cs, _ =>
    by_cases hc : c = '$'
    · subst hc
      by_cases hd : d = '{'
      · subst hd
        simp only [parse_environment_variable, List.cons_append]
        cases hf : find_close 2 cs with
        | none => simp [find_close_append_none cs rest 2 hf hrest]
        | some k =>
          have hb := find_close_bound cs 2 k hf
          simp only [find_close_append_some cs rest 2 k hf, List.drop_succ_cons, List.drop_zero]
          rw [List.take_append_of_le_length (by omega)]
      · simp [parse_environment_variable, hd]
    · simp [parse_environment_variable, hc]

theorem parse_bound (getenv : List Char → Option (List Char)) (c : Char) (cs : List Char) :
    (parse_environment_variable getenv (c :: cs)).2 ≤ cs.length := by
  unfold parse_environment_variable
  split
  · rename_i rest heq
    cases hf : find_close 2 rest with
    | none => simp
    | some k =>
      have hb := find_close_bound rest 2 k hf
      simp at heq
      obtain ⟨-, rfl⟩ := heq
      simp; omega
  · simp

theorem expand_body_bound (getenv : List Char → Option (List Char)) (c : Char)
    (cs buf : List Char) : (expand_body getenv c cs buf).1 ≤ cs.length := by
  have hb := parse_bound getenv c cs
  by_cases h : c = '$' ∧ cs.head? = some '{'
  · obtain ⟨rfl, h2⟩ := h
    cases hp : (parse_environment_variable getenv ('$' :: cs)).1 <;>
      simpa [expand_body, h2, hp] using hb
  · simp [expand_body, h]

theorem expand_body_append (getenv : List Char → Option (List Char)) (c : Char)
    (cs rest buf : List Char) (hrest : '}' ∉ rest) (hhead : rest.head? ≠ some '{') :
    expand_body getenv c (cs ++ rest) buf = expand_body getenv c cs buf := by
  have hp := parse_append getenv (c :: cs) rest (by simp) hrest hhead
  have hh : (cs ++ rest).head? = some '{' ↔ cs.head? = some '{' := by
    cases cs with
    | nil => simpa using hhead
    | cons d ds => simp
  simp only [List.cons_append] at hp
  simp only [expand_body, hp, hh]

/-- Appending a text without a closing brace (and not starting with `{`) does
not change how the text in front of it is scanned. -/
theorem expand_loop_append (getenv : List Char → Option (List Char))
    (pre rest buf : List Char) (hrest : '}' ∉ rest) (hhead : rest.head? ≠ some '{') :
    expand_loop getenv (pre ++ rest) buf = expand_loop getenv rest (expand_loop getenv pre buf) := by
  generalize hlen : pre.length = m
  induction m using Nat.strong_induction_on generalizing pre buf with
  | _ m ih =>
    cases pre with
    | nil => simp [expand_loop]
    | cons c cs =>
      have hb := expand_body_bound getenv c cs buf
      rw [List.cons_append, expand_loop_cons getenv c (cs ++ rest) buf,
        expand_loop_cons getenv c cs buf, expand_body_append getenv c cs rest buf hrest hhead]
      have hd : (c :: (cs ++ rest)).drop ((expand_body getenv c cs buf).1 + 1)
          = (c :: cs).drop ((expand_body getenv c cs buf).1 + 1) ++ rest := by
        simp only [List.drop_succ_cons]
        exact List.drop_append_of_le_length hb
      have hlt : ((c :: cs).drop ((expand_body getenv c cs buf).1 + 1)).length < m := by
        simp at hlen ⊢; omega
      rw [hd, ih _ hlt _ _ rfl]

theorem recognized_cons_cons (c d : Char) (rest : List Char) :
    recognized_placeholders (c :: d :: rest)
      = if c = '$' ∧ d = '{' ∧ (rest.takeWhile (fun x => x ≠ '}')).length < rest.length then
          rest.takeWhile (fun x => x ≠ '}')
            :: recognized_placeholders (rest.drop ((rest.takeWhile (fun x => x ≠ '}')).length + 1))
        else recognized_placeholders (d :: rest) := by
  rw [recognized_placeholders]

theorem takeWhile_no_close (rest : List Char) :
    '}' ∉ rest.takeWhile (fun x => x ≠ '}') := by
  intro h
  have := List.mem_takeWhile_imp h
  simp at this

theorem takeWhile_split (rest : List Char)
    (h : (rest.takeWhile (fun x => x ≠ '}')).length < rest.length) :
    rest = rest.takeWhile (fun x => x ≠ '}')
      ++ '}' :: rest.drop ((rest.takeWhile (fun x => x ≠ '}')).length + 1) := by
  induction rest with
  | nil => simp at h
  | cons c cs ih =>
    by_cases hc : c = '}'
    · subst hc; simp
    · have h2 : (cs.takeWhile (fun x => x ≠ '}')).length < cs.length := by
        simpa [List.takeWhile_cons, hc] using h
      have := ih h2
      simp only [List.takeWhile_cons, hc, ne_eq, not_false_eq_true, decide_True, if_true,
        List.length_cons, List.drop_succ_cons, List.cons_append, List.cons.injEq, true_and]
      simpa using this

theorem takeWhile_all (rest : List Char)
    (h : ¬ (rest.takeWhile (fun x => x ≠ '}')).length < rest.length) : '}' ∉ rest := by
  induction rest with
  | nil => simp
  | cons c cs ih =>
    by_cases hc : c = '}'
    · subst hc; simp at h
    · have h2 : ¬ (cs.takeWhile (fun x => x ≠ '}')).length < cs.length := by
        simpa [List.takeWhile_cons, hc] using h
      simp only [List.mem_cons, not_or]
      exact ⟨fun hh => hc hh.symm, ih h2⟩

/-- The accounting of the loop: the characters emitted and the markup of the
recognized placeholders add up to the buffer, the input and what each
recognized placeholder emits, which is its value when the name is defined and
the one character `$` when it is not. -/
theorem expand_loop_length (getenv : List Char → Option (List Char)) (p buf : List Char) :
    ((recognized_placeholders p).map (fun n => n.length + 3)).sum ≤ p.length ∧
    (expand_loop getenv p buf).length
        + ((recognized_placeholders p).map (fun n => n.length + 3)).sum
      = buf.length + p.length
        + ((recognized_placeholders p).map (fun n => (getenv n).elim 1 List.length)).sum := by
  generalize hlen : p.length = m
  induction m using Nat.strong_induction_on generalizing p buf with
  | _ m ih =>
    match p, hlen with
    | [], hlen =>
      subst hlen
      simp [expand_loop, recognized_placeholders]
    | [c], hlen =>
      subst hlen
      rw [expand_loop_literal_char getenv c [] buf (by simp)]
      simp [expand_loop, recognized_placeholders]
    | c :: d :: rest, hlen =>
      subst hlen
      have hstep : ∀ b : List Char,
          ((recognized_placeholders (d :: rest)).map (fun n => n.length + 3)).sum
              ≤ (d :: rest).length ∧
          (expand_loop getenv (d :: rest) b).length
              + ((recognized_placeholders (d :: rest)).map (fun n => n.length + 3)).sum
            = b.length + (d :: rest).length
              + ((recognized_placeholders (d :: rest)).map
                  (fun n => (getenv n).elim 1 List.length)).sum :=
        fun b => ih _ (by simp) (d :: rest) b rfl
      rw [recognized_cons_cons]
      by_cases hc : c = '$' ∧ d = '{'
      · obtain ⟨rfl, rfl⟩ := hc
        by_cases hlt : (rest.takeWhile (fun x => x ≠ '}')).length < rest.length
        · have hsplit := takeWhile_split rest hlt
          have hno := takeWhile_no_close rest
          generalize rest.takeWhile (fun x => x ≠ '}') = name at hsplit hno hlt ⊢
          generalize hr : rest.drop (name.length + 1) = r at hsplit ⊢
          have hrl : rest.length = name.length + 1 + r.length := by
            rw [hsplit]; simp; omega
          have hih := fun b => ih r.length (by simp; omega) r b rfl
          simp only [true_and, hlt, if_true, List.map_cons, List.sum_cons]
          subst hsplit
          cases hv : getenv name with
          | none =>
            rw [expand_loop_unknown getenv name r buf hno hv]
            have := hih (buf ++ ['$'])
            simp at this ⊢
            omega
          | some v =>
            rw [expand_loop_known getenv name v r buf hno hv]
            have := hih (buf ++ v)
            simp at this ⊢
            omega
        · have hno := takeWhile_all rest hlt
          have hpush : expand_loop getenv ('$' :: '{' :: rest) buf
              = expand_loop getenv ('{' :: rest) (buf ++ ['$']) := by
            rw [expand_loop_cons]
            simp [expand_body, parse_unterminated getenv rest hno]
          rw [hpush]
          simp only [hlt, and_false, if_false]
          have := hstep (buf ++ ['$'])
          simp at this ⊢
          omega
      · have hc2 : ¬ (c = '$' ∧ (d :: rest).head? = some '{') := by simpa using hc
        have hif : ¬ (c = '$' ∧ d = '{'
            ∧ (rest.takeWhile (fun x => x ≠ '}')).length < rest.length) :=
          fun hh => hc ⟨hh.1, hh.2.1⟩
        rw [expand_loop_literal_char getenv c (d :: rest) buf hc2]
        simp only [hif, if_false]
        have := hstep (buf ++ [c])
        simp at this ⊢
        omega

theorem normalize_length (slash bad_slash : Char) (s : List Char) :
    (normalize slash bad_slash s).length = s.length := by
  simp [normalize]

theorem expand_loop_nil (getenv : List Char → Option (List Char)) (buf : List Char) :
    expand_loop getenv [] buf = buf := by
  rw [expand_loop]

/-- With `endp` at (or behind) the end of the string the bounded loop is the
scan of the whole remaining input. -/
theorem expand_loop_until_eq (getenv : List Char → Option (List Char)) (n : Nat)
    (p buf : List Char) (h : p.length ≤ n) :
    expand_loop_until getenv n p buf = expand_loop getenv p buf := by
  induction n using Nat.strong_induction_on generalizing p buf with
  | _ n ih =>
    cases n with
    | zero =>
      cases p with
      | nil => rw [expand_loop_until, expand_loop_nil]
      | cons c cs => simp at h
    | succ n =>
      cases p with
      | nil => rw [expand_loop_until, expand_loop_nil]
      | cons c cs =>
        rw [expand_loop_until, expand_loop_cons]
        apply ih (n - (expand_body getenv c cs buf).1) (by omega)
        simp at h ⊢
        omega

/-- On a string shorter than `2^31` bytes `len` is the length of the string and
the loop scans all of it. -/
theorem expand_string_of_lt (slash bad_slash : Char) (getenv : List Char → Option (List Char))
    (str : List Char) (hlen : str.length < 2 ^ 31) :
    expand_string slash bad_slash getenv str
      = if str.length = 0 then ([], [])
        else replace_slash slash bad_slash (expand_loop getenv str []) := by
  simp only [expand_string, int_len_of_lt str hlen, Int.toNat_ofNat,
    expand_loop_until_eq getenv _ str [] (le_refl _), Int.natCast_eq_zero]

/-- On a string whose length has bit 31 set `len` is negative, the loop is not
entered, and the result is the empty string. -/
theorem expand_string_wrapped (slash bad_slash : Char) (getenv : List Char → Option (List Char))
    (str : List Char) (hlen : 2 ^ 31 ≤ str.length % 2 ^ 32) :
    expand_string slash bad_slash getenv str = ([], []) := by
  have hneg := int_len_wrapped str hlen
  have h0 : int_len str ≠ 0 := by omega
  have ht : (int_len str).toNat = 0 := by omega
  simp only [expand_string, h0, if_false, ht]
  rw [expand_loop_until]
  rfl

theorem expand_string_fst_until (slash bad_slash : Char)
    (getenv : List Char → Option (List Char)) (str : List Char) :
    (expand_string slash bad_slash getenv str).1
      = normalize slash bad_slash (expand_loop_until getenv (int_len str).toNat str []) := by
  by_cases h0 : int_len str = 0
  · simp only [expand_string, h0, if_true, Int.toNat_zero]
    rw [expand_loop_until]
    rfl
  · simp only [expand_string, h0, if_false, replace_slash_fst]

theorem expand_string_fst (slash bad_slash : Char) (getenv : List Char → Option (List Char))
    (str : List Char) (hlen : str.length < 2 ^ 31) :
    (expand_string slash bad_slash getenv str).1
      = normalize slash bad_slash (expand_loop getenv str []) := by
  rw [expand_string_of_lt slash bad_slash getenv str hlen]
  cases str with
  | nil => simp [expand_loop_nil, normalize]
  | cons c cs => simp [replace_slash_fst]

/-- When every recognized placeholder has a defined name, the result of
`expand_string` has the length that the accounting of the specification gives. -/
theorem expand_string_length_defined (slash bad_slash : Char)
    (getenv : List Char → Option (List Char)) (input : List Char)
    (hlen : input.length < 2 ^ 31)
    (hdef : ∀ n ∈ recognized_placeholders input, getenv n ≠ none) :
    (expand_string slash bad_slash getenv input).1.length = accounted_length getenv input := by
  obtain ⟨hle, hsum⟩ := expand_loop_length getenv input []
  have hmap : (recognized_placeholders input).map (fun n => (getenv n).elim 1 List.length)
      = (recognized_placeholders input).map (fun n => ((getenv n).getD []).length) := by
    apply List.map_congr_left
    intro n hn
    cases hv : getenv n with
    | none => exact absurd hv (hdef n hn)
    | some v => simp
  rw [expand_string_fst _ _ _ _ hlen, normalize_length, accounted_length, ← hmap]
  simp only [List.length_nil, Nat.zero_add] at hsum
  omega

end GPL

/-! ## Lemmas on the fixed-buffer loop -/

namespace MIT

theorem takeWhile_text (l rest : List Char) (h : '\x00' ∉ l) :
    (l ++ '\x00' :: rest).takeWhile (fun c => c ≠ '\x00') = l := by
  induction l with
  | nil => simp
  | cons c cs ih =>
    simp only [List.mem_cons, not_or] at h
    have hc : c ≠ '\x00' := fun hh => h.1 hh.symm
    simpa [List.takeWhile_cons, hc] using ih h.2

theorem set_at_length (l rest : List Char) (a c : Char) :
    (l ++ a :: rest).set l.length c = l ++ c :: rest := by
  induction l with
  | nil => simp
  | cons d ds ih => simp [ih]

theorem cstr_holds (buf : string_t) (l : List Char) (h : Holds buf l) : cstr buf.data = l := by
  obtain ⟨-, hl, rest, hd⟩ := h
  rw [cstr, hd, takeWhile_text l rest hl]

theorem holds_clear (buf : string_t) : Holds (clear buf) [] := by
  have hs := buf.size
  cases hd : buf.data with
  | nil => simp [hd, MAX_STRING] at hs
  | cons d ds => exact ⟨rfl, by simp, ds, by simp [clear, hd]⟩

theorem holds_append (buf : string_t) (l : List Char) (c : Char) (h : Holds buf l)
    (hlen : l.length < MAX_STRING) (hc : c ≠ '\x00') : Holds (append buf c) (l ++ [c]) := by
  obtain ⟨ix, data, size⟩ := buf
  obtain ⟨hix, hl, rest, hd⟩ := h
  simp only at hix hd
  subst hix hd
  cases rest with
  | nil => simp [MAX_STRING] at size hlen; omega
  | cons r rs =>
    refine ⟨by simp [append, hlen], ?_, rs, ?_⟩
    · simp only [List.mem_append, List.mem_singleton, not_or]
      exact ⟨hl, fun hh => hc hh.symm⟩
    · simp only [append, hlen, if_true]
      rw [set_at_length l (r :: rs) '\x00' c]
      simp

theorem expand_holds (result : Option (List Char)) (buf : string_t) (env : Option (List Char))
    (l : List Char) (h : Holds buf l) :
    expand result buf env = (true, some (result.getD [] ++ l ++ env.getD []), clear buf) := by
  simp [expand, asprintf, cstr_holds buf l h]

/-- One pass through the loop body of the fixed-buffer file moves the cursor as
the growable-buffer file does, keeps the buffer well formed and below its
capacity, and `result` followed by the buffer is the `dyn_string`. -/
theorem expand_body_sim (getenv : List Char → Option (List Char)) (c : Char) (cs : List Char)
    (result : Option (List Char)) (buf : string_t) (l : List Char)
    (h : Holds buf l) (hlen : l.length < MAX_STRING) (hc : c ≠ '\x00') :
    (expand_body getenv c cs result buf).1
        = (GPL.expand_body getenv c cs (result.getD [] ++ l)).1 ∧
      ∃ l1, Holds (expand_body getenv c cs result buf).2.2 l1 ∧ l1.length < MAX_STRING ∧
        (expand_body getenv c cs result buf).2.1.getD [] ++ l1
          = (GPL.expand_body getenv c cs (result.getD [] ++ l)).2 := by
  have hpush : ∀ k : Nat,
      (k, expand_push c result buf true).1 = k ∧
      ∃ l1, Holds (expand_push c result buf true).2 l1 ∧ l1.length < MAX_STRING ∧
        (expand_push c result buf true).1.getD [] ++ l1 = result.getD [] ++ l ++ [c] := by
    intro k
    refine ⟨rfl, ?_⟩
    have ha := holds_append buf l c h hlen hc
    have hix : (append buf c).ix = l.length + 1 := by simpa using ha.1
    by_cases hfull : l.length + 1 ≥ MAX_STRING
    · refine ⟨[], ?_, by simp [MAX_STRING], ?_⟩
      · simp only [expand_push, if_true, max_string_size, hix, hfull, decide_True,
          expand_holds result (append buf c) none (l ++ [c]) ha]
        exact holds_clear _
      · simp [expand_push, max_string_size, hix, hfull,
          expand_holds result (append buf c) none (l ++ [c]) ha]
    · refine ⟨l ++ [c], ?_, by simp at hfull ⊢; omega, ?_⟩
      · simpa [expand_push, max_string_size, hix, hfull] using ha
      · simp [expand_push, max_string_size, hix, hfull]
  by_cases ht : c = '$' ∧ cs.head? = some '{'
  · obtain ⟨rfl, h2⟩ := ht
    cases hp : (parse_environment_variable getenv ('$' :: cs)).1 with
    | none =>
      simpa [expand_body, expand_trigger, GPL.expand_body, h2, hp] using
        (hpush (parse_environment_variable getenv ('$' :: cs)).2).2
    | some env =>
      refine ⟨by simp [expand_body, expand_trigger, GPL.expand_body, h2, hp,
        expand_holds result buf (some env) l h], [], ?_, by simp [MAX_STRING], ?_⟩
      · simp only [expand_body, expand_trigger, h2, hp, and_self, if_true,
          expand_holds result buf (some env) l h, expand_push]
        exact holds_clear _
      · simp [expand_body, expand_trigger, GPL.expand_body, h2, hp,
          expand_holds result buf (some env) l h, expand_push]
  · simpa [expand_body, expand_trigger, GPL.expand_body, ht] using (hpush 0).2

/-- The loop of the fixed-buffer file simulates the loop of the growable-buffer
file: `result` followed by the text in the buffer is the `dyn_string`. -/
theorem expand_loop_sim (getenv : List Char → Option (List Char)) (p : List Char)
    (result : Option (List Char)) (buf : string_t) (l : List Char)
    (hp : '\x00' ∉ p) (h : Holds buf l) (hlen : l.length < MAX_STRING) :
    ∃ l1, Holds (expand_loop getenv p result buf).2 l1 ∧ l1.length < MAX_STRING ∧
      (expand_loop getenv p result buf).1.getD [] ++ l1
        = GPL.expand_loop getenv p (result.getD [] ++ l) := by
  generalize hm : p.length = m
  induction m using Nat.strong_induction_on generalizing p result buf l with
  | _ m ih =>
    cases p with
    | nil => exact ⟨l, by simpa [expand_loop] using h, hlen, by simp [expand_loop, GPL.expand_loop]⟩
    | cons c cs =>
      simp only [List.mem_cons, not_or] at hp
      have hc : c ≠ '\x00' := fun hh => hp.1 hh.symm
      obtain ⟨hk, l1, hl1, hlen1, hres⟩ := expand_body_sim getenv c cs result buf l h hlen hc
      rw [expand_loop, GPL.expand_loop_cons]
      simp only [hk, ← hres]
      have hlt : ((c :: cs).drop ((GPL.expand_body getenv c cs (result.getD [] ++ l)).1 + 1)).length
          < m := by
        simp at hm ⊢; omega
      have hnul : '\x00' ∉ (c :: cs).drop ((GPL.expand_body getenv c cs (result.getD [] ++ l)).1 + 1) := by
        intro hh
        have := List.mem_of_mem_drop hh
        simp only [List.mem_cons] at this
        rcases this with h1 | h1
        · exact hp.1 h1
        · exact hp.2 h1
      exact ih _ hlt _ _ _ _ hnul hl1 hlen1 rfl

theorem loop_nil (getenv : List Char → Option (List Char))
    (result : Option (List Char)) (buf : string_t) :
    expand_loop getenv [] result buf = (result, buf) := by
  rw [expand_loop]

theorem loop_cons (getenv : List Char → Option (List Char)) (c : Char) (cs : List Char)
    (result : Option (List Char)) (buf : string_t) :
    expand_loop getenv (c :: cs) result buf
      = expand_loop getenv ((c :: cs).drop ((expand_body getenv c cs result buf).1 + 1))
          (expand_body getenv c cs result buf).2.1 (expand_body getenv c cs result buf).2.2 := by
  rw [expand_loop]

theorem body_cursor_bound (getenv : List Char → Option (List Char)) (c : Char)
    (cs : List Char) (result : Option (List Char)) (buf : string_t) :
    (expand_body getenv c cs result buf).1 ≤ cs.length := by
  have hb := GPL.parse_bound getenv c cs
  by_cases h : c = '$' ∧ cs.head? = some '{'
  · obtain ⟨rfl, h2⟩ := h
    cases hp : (parse_environment_variable getenv ('$' :: cs)).1 <;>
      simpa [expand_body, expand_trigger, expand, asprintf, h2, hp] using hb
  · simp [expand_body, expand_trigger, h]

/-- With `endp` at (or behind) the end of the string the bounded loop is the
scan of the whole remaining input. -/
theorem loop_until_eq (getenv : List Char → Option (List Char)) (n : Nat)
    (p : List Char) (result : Option (List Char)) (buf : string_t) (h : p.length ≤ n) :
    expand_loop_until getenv n p result buf = expand_loop getenv p result buf := by
  induction n using Nat.strong_induction_on generalizing p result buf with
  | _ n ih =>
    cases n with
    | zero =>
      cases p with
      | nil => rw [expand_loop_until, loop_nil]
      | cons c cs => simp at h
    | succ n =>
      cases p with
      | nil => rw [expand_loop_until, loop_nil]
      | cons c cs =>
        have hb := body_cursor_bound getenv c cs result buf
        rw [expand_loop_until, loop_cons]
        apply ih (n - (expand_body getenv c cs result buf).1) (by omega)
        simp at h ⊢
        omega

/-- The bounded loop of the fixed-buffer file simulates the bounded loop of the
growable-buffer file, for every position of `endp`. -/
theorem expand_loop_until_sim (getenv : List Char → Option (List Char)) (n : Nat)
    (p : List Char) (result : Option (List Char)) (buf : string_t) (l : List Char)
    (hp : '\x00' ∉ p) (h : Holds buf l) (hlen : l.length < MAX_STRING) :
    ∃ l1, Holds (expand_loop_until getenv n p result buf).2 l1 ∧ l1.length < MAX_STRING ∧
      (expand_loop_until getenv n p result buf).1.getD [] ++ l1
        = GPL.expand_loop_until getenv n p (result.getD [] ++ l) := by
  induction n using Nat.strong_induction_on generalizing p result buf l with
  | _ n ih =>
    cases n with
    | zero =>
      exact ⟨l, by rw [expand_loop_until]; exact h, hlen,
        by rw [expand_loop_until, GPL.expand_loop_until]⟩
    | succ n =>
      cases p with
      | nil =>
        exact ⟨l, by rw [expand_loop_until]; exact h, hlen,
          by rw [expand_loop_until, GPL.expand_loop_until]⟩
      | cons c cs =>
        simp only [List.mem_cons, not_or] at hp
        have hc : c ≠ '\x00' := fun hh => hp.1 hh.symm
        obtain ⟨hk, l1, hl1, hlen1, hres⟩ := expand_body_sim getenv c cs result buf l h hlen hc
        rw [expand_loop_until, GPL.expand_loop_until]
        simp only [hk, ← hres]
        have hnul : '\x00' ∉ (c :: cs).drop
            ((GPL.expand_body getenv c cs (result.getD [] ++ l)).1 + 1) := by
          intro hh
          have := List.mem_of_mem_drop hh
          simp only [List.mem_cons] at this
          rcases this with h1 | h1
          · exact hp.1 h1
          · exact hp.2 h1
        exact ih _ (by omega) _ _ _ _ hnul hl1 hlen1

/-- The fixed-buffer `expand_string` returns what the growable-buffer
`expand_string` returns, on every C string. -/
theorem expand_string_eq (slash bad_slash : Char) (getenv : List Char → Option (List Char))
    (buf : string_t) (str : List Char) (hstr : '\x00' ∉ str) :
    expand_string slash bad_slash getenv buf str
      = some (GPL.expand_string slash bad_slash getenv str) := by
  by_cases h0 : int_len str = 0
  · simp [expand_string, GPL.expand_string, h0]
  · obtain ⟨l1, hl1, -, hres⟩ := expand_loop_until_sim getenv (int_len str).toNat str none
      (clear buf) [] hstr (holds_clear buf) (by simp [MAX_STRING])
    simp only [expand_string, GPL.expand_string, h0, if_false, expand_holds _ _ none l1 hl1]
    simp at hres
    simp [hres]

end MIT

/-! ## Lemmas on the cursor and on termination -/

theorem find_close_at (a : List Char) (i k : Nat) (h : find_close i a = some k) :
    a[k - i]? = some '}' := by
  induction a generalizing i with
  | nil => simp [find_close] at h
  | cons c cs ih =>
    simp only [find_close] at h
    by_cases hc : c = '}'
    · simp only [hc, if_true, Option.some.injEq] at h
      subst h
      simp [hc]
    · simp only [hc, if_false] at h
      have hb := find_close_bound cs (i + 1) k h
      have := ih (i + 1) h
      have hk : k - i = (k - (i + 1)) + 1 := by omega
      rw [hk, List.getElem?_cons_succ]
      exact this

theorem parse_cursor_on_close (getenv : List Char → Option (List Char)) (s : List Char)
    (h : 0 < (parse_environment_variable getenv s).2) :
    s[(parse_environment_variable getenv s).2]? = some '}' := by
  unfold parse_environment_variable at h ⊢
  split at h
  · rename_i rest
    cases hf : find_close 2 rest with
    | none => simp [hf] at h
    | some k =>
      have hb := find_close_bound rest 2 k hf
      have hat := find_close_at rest 2 k hf
      have hk : k = (k - 2) + 1 + 1 := by omega
      simp only [hf]
      rw [hk, List.getElem?_cons_succ, List.getElem?_cons_succ]
      exact hat
  · simp at h

theorem GPL.expand_body_cursor (getenv : List Char → Option (List Char)) (c : Char)
    (cs buf : List Char) :
    (GPL.expand_body getenv c cs buf).1 = 0 ∨
      (GPL.expand_body getenv c cs buf).1 = (parse_environment_variable getenv (c :: cs)).2 := by
  by_cases h : c = '$' ∧ cs.head? = some '{'
  · obtain ⟨rfl, h2⟩ := h
    right
    cases hp : (parse_environment_variable getenv ('$' :: cs)).1 <;>
      simp [GPL.expand_body, h2, hp]
  · left
    simp [GPL.expand_body, h]

theorem GPL.expand_loop_fuel_eq (getenv : List Char → Option (List Char)) (fuel : Nat)
    (p buf : List Char) (h : p.length ≤ fuel) :
    GPL.expand_loop_fuel getenv fuel p buf = some (GPL.expand_loop getenv p buf) := by
  induction fuel generalizing p buf with
  | zero =>
    cases p with
    | nil => simp [GPL.expand_loop_fuel, GPL.expand_loop]
    | cons c cs => simp at h
  | succ fuel ih =>
    cases p with
    | nil => simp [GPL.expand_loop_fuel, GPL.expand_loop]
    | cons c cs =>
      have hb := GPL.expand_body_bound getenv c cs buf
      rw [GPL.expand_loop_fuel, GPL.expand_loop_cons]
      apply ih
      simp at h ⊢
      omega

/-! ## Lemmas on the output of `replace_slash` -/

theorem replace_slash_loop_snd (slash bad_slash : Char) (s : List Char) (i : Nat) :
    (replace_slash_loop slash bad_slash i s).2
      = List.replicate ((i + s.length - 101) - (i - 101)) "bad i\n" := by
  induction s generalizing i with
  | nil => simp [replace_slash_loop]
  | cons c cs ih =>
    simp only [replace_slash_loop, ih (i + 1), List.length_cons]
    by_cases h : i > 100
    · have hk : (i + (cs.length + 1) - 101) - (i - 101)
          = ((i + 1 + cs.length - 101) - (i + 1 - 101)) + 1 := by omega
      rw [hk, List.replicate_succ]
      simp [h]
    · have hk : (i + (cs.length + 1) - 101) - (i - 101)
          = (i + 1 + cs.length - 101) - (i + 1 - 101) := by omega
      rw [hk]
      simp [h]

/-- What `expand_string` prints: one line for every index above 100 of its
result. -/
theorem GPL.expand_string_snd (slash bad_slash : Char) (getenv : List Char → Option (List Char))
    (str : List Char) :
    (GPL.expand_string slash bad_slash getenv str).2
      = List.replicate
          ((GPL.expand_loop_until getenv (int_len str).toNat str []).length - 101) "bad i\n" := by
  by_cases h0 : int_len str = 0
  · simp only [GPL.expand_string, h0, if_true, Int.toNat_zero]
    rw [GPL.expand_loop_until]
    rfl
  · simp [GPL.expand_string, h0, replace_slash, replace_slash_loop_snd]

/-! ## Lemmas on the state invariant of the fixed buffer -/

namespace MIT

theorem invariant_clear (buf : string_t) : buf_invariant (clear buf) := by
  have hs := buf.size
  cases hd : buf.data with
  | nil => simp [hd, MAX_STRING] at hs
  | cons d ds => simp [buf_invariant, clear, hd, MAX_STRING]

theorem invariant_append (buf : string_t) (c : Char) (h : buf_invariant buf) :
    buf.ix + 1 < buf.data.length ∧ (append buf c).ix = buf.ix + 1 ∧
      (append buf c).data[buf.ix]? = some c ∧
      (append buf c).data[buf.ix + 1]? = some '\x00' := by
  obtain ⟨ix, data, size⟩ := buf
  obtain ⟨hlt, -⟩ := h
  simp only at hlt
  simp only [MAX_STRING] at hlt size
  refine ⟨by simp only [size]; omega, by simp [append, MAX_STRING, hlt], ?_, ?_⟩
  · simp only [append, MAX_STRING, hlt, if_true]
    rw [List.getElem?_set_ne (by omega), List.getElem?_set_self (by rw [size]; omega)]
  · simp only [append, MAX_STRING, hlt, if_true]
    rw [List.getElem?_set_self (by rw [List.length_set, size]; omega)]

theorem invariant_expand_push (c : Char) (result : Option (List Char)) (buf : string_t)
    (push : Bool) (h : buf_invariant buf) :
    buf_invariant (expand_push c result buf push).2 := by
  cases push with
  | false => simpa [expand_push] using h
  | true =>
    obtain ⟨-, hix, -, hnul⟩ := invariant_append buf c h
    by_cases hfull : (append buf c).ix ≥ MAX_STRING
    · simp only [expand_push, if_true, max_string_size, hfull, decide_True, expand, asprintf]
      exact invariant_clear _
    · have hpush : (expand_push c result buf true).2 = append buf c := by
        simp [expand_push, max_string_size, hfull]
      rw [hpush]
      refine ⟨by omega, ?_⟩
      rw [hix]
      exact hnul

theorem invariant_expand_trigger (getenv : List Char → Option (List Char)) (c : Char)
    (cs : List Char) (result : Option (List Char)) (buf : string_t) (h : buf_invariant buf) :
    buf_invariant (expand_trigger getenv c cs result buf).2.2.1 := by
  by_cases ht : c = '$' ∧ cs.head? = some '{'
  · obtain ⟨rfl, h2⟩ := ht
    cases hp : (parse_environment_variable getenv ('$' :: cs)).1 with
    | none => simpa [expand_trigger, h2, hp] using h
    | some env =>
      simp only [expand_trigger, h2, hp, and_self, if_true, expand, asprintf]
      exact invariant_clear _
  · simpa [expand_trigger, ht] using h

theorem invariant_expand_body (getenv : List Char → Option (List Char)) (c : Char)
    (cs : List Char) (result : Option (List Char)) (buf : string_t) (h : buf_invariant buf) :
    buf_invariant (expand_body getenv c cs result buf).2.2 :=
  invariant_expand_push c _ _ _ (invariant_expand_trigger getenv c cs result buf h)

theorem invariant_iteration_bufs (getenv : List Char → Option (List Char)) (p : List Char)
    (result : Option (List Char)) (buf : string_t) (h : buf_invariant buf) :
    ∀ b ∈ iteration_bufs getenv p result buf, buf_invariant b := by
  generalize hm : p.length = m
  induction m using Nat.strong_induction_on generalizing p result buf with
  | _ m ih =>
    cases p with
    | nil =>
      intro b hb
      rw [iteration_bufs] at hb
      simp only [List.mem_singleton] at hb
      subst hb
      exact h
    | cons c cs =>
      intro b hb
      rw [iteration_bufs] at hb
      simp only [List.mem_cons] at hb
      rcases hb with rfl | hb
      · exact h
      · have hlt : ((c :: cs).drop ((expand_body getenv c cs result buf).1 + 1)).length < m := by
          simp at hm ⊢; omega
        exact ih _ hlt _ _ _ (invariant_expand_body getenv c cs result buf h) rfl b hb

theorem invariant_expand_loop (getenv : List Char → Option (List Char)) (p : List Char)
    (result : Option (List Char)) (buf : string_t) (h : buf_invariant buf) :
    buf_invariant (expand_loop getenv p result buf).2 := by
  generalize hm : p.length = m
  induction m using Nat.strong_induction_on generalizing p result buf with
  | _ m ih =>
    cases p with
    | nil => simpa [expand_loop] using h
    | cons c cs =>
      rw [expand_loop]
      have hlt : ((c :: cs).drop ((expand_body getenv c cs result buf).1 + 1)).length < m := by
        simp at hm ⊢; omega
      exact ih _ hlt _ _ _ (invariant_expand_body getenv c cs result buf h) rfl

theorem iteration_bufs_getLast (getenv : List Char → Option (List Char)) (p : List Char)
    (result : Option (List Char)) (buf : string_t) :
    (iteration_bufs getenv p result buf).getLast? = some (expand_loop getenv p result buf).2 := by
  generalize hm : p.length = m
  induction m using Nat.strong_induction_on generalizing p result buf with
  | _ m ih =>
    cases p with
    | nil => simp [iteration_bufs, expand_loop]
    | cons c cs =>
      have hlt : ((c :: cs).drop ((expand_body getenv c cs result buf).1 + 1)).length < m := by
        simp at hm ⊢; omega
      have hrec := ih _ hlt ((c :: cs).drop ((expand_body getenv c cs result buf).1 + 1))
        (expand_body getenv c cs result buf).2.1 (expand_body getenv c cs result buf).2.2 rfl
      rw [iteration_bufs, expand_loop, List.getLast?_cons, hrec]
      rfl

end MIT

/-! ## Lemmas on the bounded loops -/

theorem GPL.expand_loop_until_fuel_eq (getenv : List Char → Option (List Char))
    (fuel n : Nat) (p buf : List Char) (h : n ≤ fuel) :
    GPL.expand_loop_until_fuel getenv fuel n p buf
      = some (GPL.expand_loop_until getenv n p buf) := by
  induction fuel generalizing n p buf with
  | zero =>
    have hn : n = 0 := by omega
    subst hn
    rw [GPL.expand_loop_until_fuel, GPL.expand_loop_until]
  | succ fuel ih =>
    cases n with
    | zero => rw [GPL.expand_loop_until_fuel, GPL.expand_loop_until]
    | succ n =>
      cases p with
      | nil => rw [GPL.expand_loop_until_fuel, GPL.expand_loop_until]
      | cons c cs =>
        rw [GPL.expand_loop_until_fuel, GPL.expand_loop_until]
        exact ih _ _ _ (by omega)

theorem MIT.iteration_bufs_until_prefix (getenv : List Char → Option (List Char)) (n : Nat)
    (p : List Char) (result : Option (List Char)) (buf : MIT.string_t) :
    MIT.iteration_bufs_until getenv n p result buf <+: MIT.iteration_bufs getenv p result buf := by
  induction n using Nat.strong_induction_on generalizing p result buf with
  | _ n ih =>
    cases n with
    | zero =>
      rw [MIT.iteration_bufs_until]
      cases p with
      | nil => rw [MIT.iteration_bufs]
      | cons c cs =>
        rw [MIT.iteration_bufs]
        exact ⟨_, rfl⟩
    | succ n =>
      cases p with
      | nil => rw [MIT.iteration_bufs_until, MIT.iteration_bufs]
      | cons c cs =>
        rw [MIT.iteration_bufs_until, MIT.iteration_bufs]
        exact (List.prefix_cons_inj buf).mpr (ih _ (by omega) _ _ _)

theorem MIT.iteration_bufs_until_getLast (getenv : List Char → Option (List Char)) (n : Nat)
    (p : List Char) (result : Option (List Char)) (buf : MIT.string_t) :
    (MIT.iteration_bufs_until getenv n p result buf).getLast?
      = some (MIT.expand_loop_until getenv n p result buf).2 := by
  induction n using Nat.strong_induction_on generalizing p result buf with
  | _ n ih =>
    cases n with
    | zero => rw [MIT.iteration_bufs_until, MIT.expand_loop_until]; rfl
    | succ n =>
      cases p with
      | nil => rw [MIT.iteration_bufs_until, MIT.expand_loop_until]; rfl
      | cons c cs =>
        have hrec := ih (n - (MIT.expand_body getenv c cs result buf).1) (by omega)
          ((c :: cs).drop ((MIT.expand_body getenv c cs result buf).1 + 1))
          (MIT.expand_body getenv c cs result buf).2.1 (MIT.expand_body getenv c cs result buf).2.2
        rw [MIT.iteration_bufs_until, MIT.expand_loop_until, List.getLast?_cons, hrec]
        rfl

/-! ## Lemmas on the string of `2^31` letters -/

theorem long_run_length : long_run.length = 2 ^ 31 :=
  List.length_replicate _ _

theorem not_mem_long_run (c : Char) (h : c ≠ 'a') : c ∉ long_run := fun hm =>
  h (List.eq_of_mem_replicate hm)

theorem not_infix_long_run : ¬ ['$', '{'] <:+: long_run := fun hh =>
  not_mem_long_run '$' (by decide) (hh.subset (List.mem_cons_self '$' ['{']))

/-- A string that is `2^31` letters and fewer than `2^31` other bytes long makes
`len` negative: `expand_string` returns the empty string. -/
theorem GPL.expand_string_long (slash bad_slash : Char)
    (getenv : List Char → Option (List Char)) (str : List Char) (k : Nat)
    (hk : k < 2 ^ 31) (hlen : str.length = 2 ^ 31 + k) :
    GPL.expand_string slash bad_slash getenv str = ([], []) := by
  apply GPL.expand_string_wrapped
  rw [hlen]
  omega

theorem normalize_ne_nil (slash bad_slash : Char) (s : List Char) (h : 0 < s.length) :
    ([] : List Char) ≠ normalize slash bad_slash s := by
  intro hh
  have := congrArg List.length hh
  rw [GPL.normalize_length] at this
  simp at this
  omega

/-! ## The claims -/

/-- C2, as amended: a `$` that is not followed by `{` is never a trigger. For
every input shorter than `2^31` bytes in which no `$` is immediately followed
by `{`, and every lookup, `expand_string` returns the normalized input. -/
theorem C2_dollar_without_brace_is_literal (slash bad_slash : Char)
    (getenv : List Char → Option (List Char)) (input : List Char)
    (hlen : input.length < 2 ^ 31) (h : ¬ ['$', '{'] <:+: input) :
    (GPL.expand_string slash bad_slash getenv input).1 = normalize slash bad_slash input := by
  rw [GPL.expand_string_fst _ _ _ _ hlen, GPL.expand_loop_literal getenv input [] h]
  simp

theorem C2_witness :
    ("$RESULT\\allan".toList.length < 2 ^ 31 ∧ ¬ ['$', '{'] <:+: "$RESULT\\allan".toList) ∧
    (GPL.expand_string '/' '\\' main_env "$RESULT\\allan".toList).1 = "$RESULT/allan".toList := by
  have h := C2_dollar_without_brace_is_literal '/' '\\' main_env "$RESULT\\allan".toList
    (by decide) (by decide)
  refine ⟨⟨by decide, by decide⟩, ?_⟩
  rw [h]; decide

/-- C2, as stated, fails: on `2^31` letters `a`, an input without any `$`,
`int len` is negative and `expand_string` returns the empty string, not the
input. -/
theorem C2_counterexample :
    (¬ ['$', '{'] <:+: long_run) ∧
    (GPL.expand_string '/' '\\' main_env long_run).1 = [] ∧
    (GPL.expand_string '/' '\\' main_env long_run).1 ≠ normalize '/' '\\' long_run := by
  have he : GPL.expand_string '/' '\\' main_env long_run = ([], []) :=
    GPL.expand_string_long _ _ _ _ 0 (by norm_num) (by rw [long_run_length]; rfl)
  refine ⟨not_infix_long_run, by rw [he], ?_⟩
  rw [he]
  exact normalize_ne_nil _ _ _ (by rw [long_run_length]; norm_num)

/-- C3, as amended: an unterminated `${` is passed through verbatim in every
input shorter than `2^31` bytes. For every prefix, every tail without a closing
brace and every lookup, when prefix, `${` and tail are together shorter than
`2^31` bytes, `expand_string` of the prefix followed by `${` and the tail is
`expand_string` of the prefix followed by the normalized `${` and tail. -/
theorem C3_unterminated_passed_through (slash bad_slash : Char)
    (getenv : List Char → Option (List Char)) (pre t : List Char)
    (hlen : (pre ++ '$' :: '{' :: t).length < 2 ^ 31) (ht : '}' ∉ t) :
    (GPL.expand_string slash bad_slash getenv (pre ++ '$' :: '{' :: t)).1
      = (GPL.expand_string slash bad_slash getenv pre).1
          ++ normalize slash bad_slash ('$' :: '{' :: t) := by
  have hrest : '}' ∉ '$' :: '{' :: t := by
    simp only [List.mem_cons, not_or]
    exact ⟨by decide, by decide, ht⟩
  have hpre : pre.length < 2 ^ 31 := by
    simp only [List.length_append] at hlen
    omega
  rw [GPL.expand_string_fst _ _ _ _ hlen, GPL.expand_string_fst _ _ _ _ hpre,
    GPL.expand_loop_append getenv pre _ [] hrest (by simp),
    GPL.expand_loop_no_close getenv _ _ hrest, normalize_append]

theorem C3_witness :
    (("The result is ".toList ++ '$' :: '{' :: "RESULT".toList).length < 2 ^ 31 ∧
      '}' ∉ "RESULT".toList) ∧
    (GPL.expand_string '/' '\\' main_env ("The result is ".toList ++ '$' :: '{' :: "RESULT".toList)).1
      = (GPL.expand_string '/' '\\' main_env "The result is ".toList).1
          ++ normalize '/' '\\' ('$' :: '{' :: "RESULT".toList) ∧
    (GPL.expand_string '/' '\\' main_env ("The result is ".toList ++ '$' :: '{' :: "RESULT".toList)).1
      = "The result is ".toList ++ '$' :: '{' :: "RESULT".toList := by
  have h := C3_unterminated_passed_through '/' '\\' main_env "The result is ".toList
    "RESULT".toList (by decide) (by decide)
  refine ⟨⟨by decide, by decide⟩, h, ?_⟩
  rw [h, GPL.expand_string_fst _ _ _ _ (by decide), GPL.expand_loop_literal _ _ _ (by decide)]
  decide

/-- C3, as stated, fails: with the empty prefix and a tail of `2^31` letters
`a`, `int len` is negative and `expand_string` of `${` and the tail is the
empty string, not `${` and the tail. -/
theorem C3_counterexample :
    ('}' ∉ long_run) ∧
    (GPL.expand_string '/' '\\' main_env ([] ++ '$' :: '{' :: long_run)).1 = [] ∧
    (GPL.expand_string '/' '\\' main_env ([] ++ '$' :: '{' :: long_run)).1
      ≠ (GPL.expand_string '/' '\\' main_env []).1
          ++ normalize '/' '\\' ('$' :: '{' :: long_run) := by
  have he : GPL.expand_string '/' '\\' main_env ([] ++ '$' :: '{' :: long_run) = ([], []) :=
    GPL.expand_string_long _ _ _ _ 2 (by norm_num)
      (by rw [List.nil_append, List.length_cons, List.length_cons, long_run_length])
  have h1 : (GPL.expand_string '/' '\\' main_env ([] ++ '$' :: '{' :: long_run)).1 = [] := by
    rw [he]
  refine ⟨not_mem_long_run '}' (by decide), h1, ?_⟩
  rw [h1]
  intro hh
  have h2 := (List.append_eq_nil.mp hh.symm).2
  rw [normalize, List.map_cons] at h2
  exact List.cons_ne_nil _ _ h2

/-- C4: with no variable defined, both files turn `${UNKNOWN_VAR_XYZ}` into the
one character `$` (the claim has the empty string), and `a${X}b` into `a$b`
(the claim has `ab`): the closing brace is found, the lookup fails, the cursor
is moved onto the closing brace, and the saved `$` is pushed. -/
theorem C4_unknown_variable_leaves_dollar :
    (GPL.expand_string '/' '\\' empty_env
        ('$' :: '{' :: ("UNKNOWN_VAR_XYZ".toList ++ ['}']))).1 = ['$'] ∧
    (MIT.expand_string '/' '\\' empty_env stack_buf
        ('$' :: '{' :: ("UNKNOWN_VAR_XYZ".toList ++ ['}']))).map Prod.fst = some ['$'] ∧
    (GPL.expand_string '/' '\\' empty_env ['a', '$', '{', 'X', '}', 'b']).1 = ['a', '$', 'b'] ∧
    normalize '/' '\\' (['a'] ++ ['b']) = ['a', 'b'] := by
  have h1 : (GPL.expand_string '/' '\\' empty_env
      ('$' :: '{' :: ("UNKNOWN_VAR_XYZ".toList ++ ['}']))).1 = ['$'] := by
    rw [GPL.expand_string_fst _ _ _ _ (by decide),
      GPL.expand_loop_unknown empty_env "UNKNOWN_VAR_XYZ".toList [] [] (by decide) rfl]
    simp [GPL.expand_loop_nil, normalize]
  refine ⟨h1, ?_, ?_, by decide⟩
  · rw [MIT.expand_string_eq _ _ _ _ _ (by decide), Option.map_some', h1]
  · rw [GPL.expand_string_fst _ _ _ _ (by decide)]
    simp [GPL.expand_loop_cons, GPL.expand_loop_nil, GPL.expand_body,
      parse_environment_variable, find_close, normalize, empty_env]

/-- C7: normalization covers the whole result, substituted values included.
When the separator and the foreign separator differ, the string returned by
`expand_string` holds no foreign separator, for every input and lookup. -/
theorem C7_result_has_no_foreign_separator (slash bad_slash : Char)
    (getenv : List Char → Option (List Char)) (input : List Char) (hne : slash ≠ bad_slash) :
    bad_slash ∉ (GPL.expand_string slash bad_slash getenv input).1 := by
  rw [GPL.expand_string_fst_until]
  intro hmem
  simp only [normalize, List.mem_map] at hmem
  obtain ⟨c, -, hc⟩ := hmem
  by_cases hcb : c = bad_slash
  · rw [if_pos hcb] at hc
    exact hne hc
  · rw [if_neg hcb] at hc
    exact hcb hc

theorem C7_witness :
    ('/' ≠ '\\' ∧ nested_env ['B'] = some ['a', '\\', 'b']) ∧
    '\\' ∉ (GPL.expand_string '/' '\\' nested_env ['$', '{', 'B', '}']).1 ∧
    (GPL.expand_string '/' '\\' nested_env ['$', '{', 'B', '}']).1 = ['a', '/', 'b'] := by
  refine ⟨⟨by decide, by decide⟩,
    C7_result_has_no_foreign_separator '/' '\\' nested_env ['$', '{', 'B', '}'] (by decide), ?_⟩
  rw [GPL.expand_string_fst _ _ _ _ (by decide)]
  simp [GPL.expand_loop_cons, GPL.expand_loop_nil, GPL.expand_body, parse_environment_variable,
    find_close, nested_env, normalize]

/-- C8: `replace_slash` is the pointwise character map. For every string, the
result has the length of the argument and holds, at every index, the separator
where the argument holds the foreign separator and the character of the
argument elsewhere. -/
theorem C8_replace_slash_pointwise (slash bad_slash : Char) (s : List Char) :
    (replace_slash slash bad_slash s).1.length = s.length ∧
      ∀ i : Nat, (replace_slash slash bad_slash s).1[i]?
        = (s[i]?).map (fun c => if c = bad_slash then slash else c) := by
  rw [replace_slash_fst]
  simp [normalize]

/-- C9: with no variable defined, the result of `expand_string` on `${X}` has
length 1, while the accounting of the specification (input length 4, minus the
markup 1 + 3 of the one recognized placeholder `X`, plus 0 for the lookup that
is not-found) gives 0: the `$` is both part of the placeholder and copied. -/
theorem C9_unknown_variable_breaks_accounting :
    recognized_placeholders ['$', '{', 'X', '}'] = [['X']] ∧
    accounted_length empty_env ['$', '{', 'X', '}'] = 0 ∧
    (GPL.expand_string '/' '\\' empty_env ['$', '{', 'X', '}']).1 = ['$'] ∧
    (GPL.expand_string '/' '\\' empty_env ['$', '{', 'X', '}']).1.length = 1 := by
  have hr : recognized_placeholders ['$', '{', 'X', '}'] = [['X']] := by
    simp [recognized_placeholders]
  have he : (GPL.expand_string '/' '\\' empty_env ['$', '{', 'X', '}']).1 = ['$'] := by
    rw [GPL.expand_string_fst _ _ _ _ (by decide)]
    simp [GPL.expand_loop_cons, GPL.expand_loop_nil, GPL.expand_body,
      parse_environment_variable, find_close, normalize, empty_env]
  refine ⟨hr, ?_, he, by rw [he]; rfl⟩
  simp [accounted_length, hr, empty_env]

/-- C10, as amended: placeholders are resolved independently, in sequence, in
every input shorter than `2^31` bytes. For every name without a closing brace,
every lookup that maps the name to `v` and every remainder, when `${name}` and
the remainder are together shorter than `2^31` bytes, `expand_string` of
`${name}` followed by the remainder is the normalized `v` followed by
`expand_string` of the remainder. -/
theorem C10_placeholders_in_sequence (slash bad_slash : Char)
    (getenv : List Char → Option (List Char)) (n v r : List Char)
    (hlen : ('$' :: '{' :: (n ++ '}' :: r)).length < 2 ^ 31)
    (hn : '}' ∉ n) (hv : getenv n = some v) :
    (GPL.expand_string slash bad_slash getenv ('$' :: '{' :: (n ++ '}' :: r))).1
      = normalize slash bad_slash v ++ (GPL.expand_string slash bad_slash getenv r).1 := by
  have hr : r.length < 2 ^ 31 := by
    simp only [List.length_cons, List.length_append] at hlen
    omega
  rw [GPL.expand_string_fst _ _ _ _ hlen, GPL.expand_string_fst _ _ _ _ hr,
    GPL.expand_loop_known getenv n v r _ hn hv, GPL.expand_loop_buf, normalize_append]
  simp

theorem C10_witness :
    (('$' :: '{' :: (['A'] ++ '}' :: ['$', '{', 'B', '}'])).length < 2 ^ 31 ∧
      '}' ∉ ['A'] ∧ nested_env ['A'] = some ['$', '{', 'B', '}']) ∧
    (GPL.expand_string '/' '\\' nested_env ('$' :: '{' :: (['A'] ++ '}' :: ['$', '{', 'B', '}']))).1
      = normalize '/' '\\' ['$', '{', 'B', '}']
          ++ (GPL.expand_string '/' '\\' nested_env ['$', '{', 'B', '}']).1 ∧
    (GPL.expand_string '/' '\\' nested_env ('$' :: '{' :: (['A'] ++ '}' :: ['$', '{', 'B', '}']))).1
      = normalize '/' '\\' (['$', '{', 'B', '}'] ++ ['a', '\\', 'b']) := by
  have h := C10_placeholders_in_sequence '/' '\\' nested_env ['A'] ['$', '{', 'B', '}']
    ['$', '{', 'B', '}'] (by decide) (by decide) (by decide)
  refine ⟨⟨by decide, by decide, by decide⟩, h, ?_⟩
  rw [h, GPL.expand_string_fst _ _ _ _ (by decide)]
  simp [GPL.expand_loop_cons, GPL.expand_loop_nil, GPL.expand_body, parse_environment_variable,
    find_close, nested_env, normalize]

/-- C10, as stated, fails: with `RESULT` set to `Success` and a remainder of
`2^31` letters `a`, `int len` is negative and `expand_string` of `${RESULT}`
followed by the remainder is the empty string, not `Success` followed by
`expand_string` of the remainder. -/
theorem C10_counterexample :
    ('}' ∉ "RESULT".toList ∧ main_env "RESULT".toList = some "Success".toList) ∧
    (GPL.expand_string '/' '\\' main_env ('$' :: '{' :: ("RESULT".toList ++ '}' :: long_run))).1
      = [] ∧
    (GPL.expand_string '/' '\\' main_env ('$' :: '{' :: ("RESULT".toList ++ '}' :: long_run))).1
      ≠ normalize '/' '\\' "Success".toList
          ++ (GPL.expand_string '/' '\\' main_env long_run).1 := by
  have he : GPL.expand_string '/' '\\' main_env
      ('$' :: '{' :: ("RESULT".toList ++ '}' :: long_run)) = ([], []) :=
    GPL.expand_string_long _ _ _ _ 9 (by norm_num)
      (by
        rw [List.length_cons, List.length_cons, List.length_append, List.length_cons,
          long_run_length]
        show 6 + (2 ^ 31 + 1) + 1 + 1 = 2 ^ 31 + 9
        norm_num)
  refine ⟨⟨by decide, by decide⟩, by rw [he], ?_⟩
  rw [he]
  intro hh
  have h7 : (normalize '/' '\\' "Success".toList).length = 7 := by decide
  have := congrArg List.length hh
  simp only [List.length_nil, List.length_append, h7] at this
  omega

/-- C11: the first closing brace always terminates a placeholder. On the input
`${A${B}}` the name that `parse_environment_variable` looks up is the text
`A${B`, and for every lookup that maps this text to `v` (whatever it does with
`A` and `B`) `expand_string` returns the normalized `v` followed by `}`. -/
theorem C11_first_close_terminates (slash bad_slash : Char)
    (getenv : List Char → Option (List Char)) (v : List Char)
    (hv : getenv ['A', '$', '{', 'B'] = some v) (hb : bad_slash ≠ '}') :
    parse_environment_variable getenv ['$', '{', 'A', '$', '{', 'B', '}', '}']
        = (getenv ['A', '$', '{', 'B'], 6) ∧
      (GPL.expand_string slash bad_slash getenv ['$', '{', 'A', '$', '{', 'B', '}', '}']).1
        = normalize slash bad_slash v ++ ['}'] := by
  refine ⟨parse_placeholder getenv ['A', '$', '{', 'B'] ['}'] (by decide), ?_⟩
  have hk := GPL.expand_loop_known getenv ['A', '$', '{', 'B'] v ['}'] [] (by decide) hv
  simp only [List.cons_append, List.nil_append] at hk
  rw [GPL.expand_string_fst _ _ _ _ (by decide), hk, GPL.expand_loop_literal getenv ['}'] _ (by decide),
    normalize_append]
  simp [normalize, hb.symm]

theorem C11_witness :
    (brace_env ['A', '$', '{', 'B'] = some ['x', '\\', 'y'] ∧ '\\' ≠ '}') ∧
    (GPL.expand_string '/' '\\' brace_env ['$', '{', 'A', '$', '{', 'B', '}', '}']).1
      = ['x', '/', 'y', '}'] := by
  have h := C11_first_close_terminates '/' '\\' brace_env ['x', '\\', 'y'] (by decide)
    (by decide)
  refine ⟨⟨by decide, by decide⟩, ?_⟩
  rw [h.2]; decide

/-- C12: with the empty name not defined, both files turn `${}` into the one
character `$` (the claim has the empty string): the closing brace is found at
index 2, the lookup of the empty name fails, the cursor is moved onto the
closing brace, and the saved `$` is pushed. -/
theorem C12_empty_placeholder_leaves_dollar :
    empty_env [] = none ∧
    parse_environment_variable empty_env ['$', '{', '}'] = (none, 2) ∧
    (GPL.expand_string '/' '\\' empty_env ['$', '{', '}']).1 = ['$'] ∧
    (MIT.expand_string '/' '\\' empty_env stack_buf ['$', '{', '}']).map Prod.fst
      = some ['$'] := by
  have h1 : (GPL.expand_string '/' '\\' empty_env ['$', '{', '}']).1 = ['$'] := by
    rw [GPL.expand_string_fst _ _ _ _ (by decide)]
    simp [GPL.expand_loop_cons, GPL.expand_loop_nil, GPL.expand_body,
      parse_environment_variable, find_close, normalize, empty_env]
  refine ⟨rfl, by simp [parse_environment_variable, find_close, empty_env], h1, ?_⟩
  rw [MIT.expand_string_eq _ _ _ _ _ (by decide), Option.map_some', h1]

/-- C14: `expand_string` is total. In every iteration of the scan loop the
cursor ends inside the input (on the closing brace when it has moved), the
increment leaves a strictly shorter remainder, and the loop, run for as many
iterations as the input has characters, reaches the end of the input and
returns the content of the buffer. The loop bounded by `endp`, as
`expand_string` runs it, returns after at most as many iterations as there are
bytes in front of `endp`, and is the scan of the whole input when `endp` is
the end of the string. -/
theorem C14_expand_string_total (getenv : List Char → Option (List Char)) (p buf : List Char) :
    (∀ fuel : Nat, p.length ≤ fuel →
        GPL.expand_loop_fuel getenv fuel p buf = some (GPL.expand_loop getenv p buf)) ∧
      (∀ (c : Char) (cs : List Char), p = c :: cs →
        (GPL.expand_body getenv c cs buf).1 + 1 ≤ p.length ∧
        (p.drop ((GPL.expand_body getenv c cs buf).1 + 1)).length < p.length ∧
        (0 < (GPL.expand_body getenv c cs buf).1 →
          p[(GPL.expand_body getenv c cs buf).1]? = some '}')) ∧
      (∀ n fuel : Nat, n ≤ fuel →
        GPL.expand_loop_until_fuel getenv fuel n p buf
          = some (GPL.expand_loop_until getenv n p buf)) ∧
      (∀ n : Nat, p.length ≤ n →
        GPL.expand_loop_until getenv n p buf = GPL.expand_loop getenv p buf) := by
  refine ⟨fun fuel h => GPL.expand_loop_fuel_eq getenv fuel p buf h, ?_,
    fun n fuel h => GPL.expand_loop_until_fuel_eq getenv fuel n p buf h,
    fun n h => GPL.expand_loop_until_eq getenv n p buf h⟩
  rintro c cs rfl
  have hb := GPL.expand_body_bound getenv c cs buf
  refine ⟨by simp; omega, by simp; omega, fun hpos => ?_⟩
  rcases GPL.expand_body_cursor getenv c cs buf with h0 | hp
  · omega
  · rw [hp] at hpos ⊢
    exact parse_cursor_on_close getenv (c :: cs) hpos

theorem C14_witness :
    GPL.expand_loop_fuel main_env 11 ['a', '$', '{', 'R', 'E', 'S', 'U', 'L', 'T', '}', 'b'] []
        = some ['a', 'S', 'u', 'c', 'c', 'e', 's', 's', 'b'] ∧
    GPL.expand_loop main_env ['a', '$', '{', 'R', 'E', 'S', 'U', 'L', 'T', '}', 'b'] []
        = ['a', 'S', 'u', 'c', 'c', 'e', 's', 's', 'b'] ∧
    (GPL.expand_body main_env '$' ['{', 'R', 'E', 'S', 'U', 'L', 'T', '}', 'b'] ['a']).1 = 8 ∧
    ['$', '{', 'R', 'E', 'S', 'U', 'L', 'T', '}', 'b'][8]? = some '}' := by
  have h := (C14_expand_string_total main_env
    ['a', '$', '{', 'R', 'E', 'S', 'U', 'L', 'T', '}', 'b'] []).1 11 (by decide)
  have hf : GPL.expand_loop_fuel main_env 11
      ['a', '$', '{', 'R', 'E', 'S', 'U', 'L', 'T', '}', 'b'] []
      = some ['a', 'S', 'u', 'c', 'c', 'e', 's', 's', 'b'] := by decide
  refine ⟨hf, ?_, by decide, by decide⟩
  rw [hf] at h
  exact (Option.some.inj h).symm

/-- C15: on an input of 102 letters `a`, with no variable defined, both files
return the 102 letters and print the line `bad i` once (the claim has nothing
printed): the loop of `replace_slash` prints at every index above 100. -/
theorem C15_replace_slash_prints :
    (GPL.expand_string '/' '\\' empty_env (List.replicate 102 'a')).1 = List.replicate 102 'a' ∧
    (GPL.expand_string '/' '\\' empty_env (List.replicate 102 'a')).2 = ["bad i\n"] ∧
    (MIT.expand_string '/' '\\' empty_env stack_buf (List.replicate 102 'a')).map Prod.snd
      = some ["bad i\n"] := by
  have hlit : ¬ ['$', '{'] <:+: List.replicate 102 'a' := fun hh =>
    absurd (List.eq_of_mem_replicate (hh.subset (List.mem_cons_self '$' ['{'])))
      (by decide : ¬ '$' = 'a')
  have hl : GPL.expand_loop empty_env (List.replicate 102 'a') [] = List.replicate 102 'a' := by
    rw [GPL.expand_loop_literal empty_env _ [] hlit]
    rfl
  have hlen : (List.replicate 102 'a').length < 2 ^ 31 := by
    rw [List.length_replicate]
    norm_num
  have hu : GPL.expand_loop_until empty_env (int_len (List.replicate 102 'a')).toNat
      (List.replicate 102 'a') [] = List.replicate 102 'a' := by
    rw [int_len_of_lt _ hlen, Int.toNat_ofNat, GPL.expand_loop_until_eq _ _ _ _ (le_refl _), hl]
  have h2 : (GPL.expand_string '/' '\\' empty_env (List.replicate 102 'a')).2 = ["bad i\n"] := by
    rw [GPL.expand_string_snd, hu]
    decide
  refine ⟨?_, h2, ?_⟩
  · rw [GPL.expand_string_fst _ _ _ _ hlen, hl]
    decide
  · rw [MIT.expand_string_eq _ _ _ _ _ (by decide), Option.map_some', h2]

/-- C16: empty input gives empty output. For every lookup, both files return
the empty string on the empty input, and print nothing. -/
theorem C16_empty_input_empty_output (slash bad_slash : Char)
    (getenv : List Char → Option (List Char)) (buf : MIT.string_t) :
    GPL.expand_string slash bad_slash getenv [] = ([], []) ∧
      MIT.expand_string slash bad_slash getenv buf [] = some ([], []) := by
  have h0 : int_len [] = 0 := by decide
  simp [GPL.expand_string, MIT.expand_string, h0]

/-- C17: normalization is idempotent. For every string and every separator
pair, also a pair of equal characters, `replace_slash` applied to the string
that `replace_slash` returns gives that string again. -/
theorem C17_replace_slash_idempotent (slash bad_slash : Char) (s : List Char) :
    (replace_slash slash bad_slash (replace_slash slash bad_slash s).1).1
      = (replace_slash slash bad_slash s).1 := by
  rw [replace_slash_fst, replace_slash_fst]
  simp only [normalize, List.map_map]
  apply List.map_congr_left
  intro c _
  by_cases hc : c = bad_slash
  · by_cases hs : slash = bad_slash <;> simp [hc, hs]
  · simp [hc]

/-- C18: `parse_environment_variable` implements its documented contract. When
the string is `${`, a name without a closing brace, `}` and a remainder, it
returns the lookup of the name and leaves `*next` on that closing brace (index
2 + length of the name), whether or not the lookup succeeds; for every other
string it returns `NULL` and leaves `*next` at the string itself. -/
theorem C18_parse_environment_variable_contract (getenv : List Char → Option (List Char))
    (s : List Char) :
    (∀ n r : List Char, '}' ∉ n → s = '$' :: '{' :: (n ++ '}' :: r) →
        parse_environment_variable getenv s = (getenv n, 2 + n.length)) ∧
      ((¬ ∃ n r : List Char, '}' ∉ n ∧ s = '$' :: '{' :: (n ++ '}' :: r)) →
        parse_environment_variable getenv s = (none, 0)) := by
  constructor
  · rintro n r hn rfl
    rw [parse_placeholder getenv n r hn, Nat.add_comm]
  · intro hno
    by_cases hs : ∃ rest, s = '$' :: '{' :: rest
    · obtain ⟨rest, rfl⟩ := hs
      by_cases hlt : (rest.takeWhile (fun x => x ≠ '}')).length < rest.length
      · exact absurd ⟨_, _, GPL.takeWhile_no_close rest,
          congrArg (fun t => '$' :: '{' :: t) (GPL.takeWhile_split rest hlt)⟩ hno
      · exact parse_unterminated getenv rest (GPL.takeWhile_all rest hlt)
    · unfold parse_environment_variable
      split
      · rename_i rest
        exact absurd ⟨rest, rfl⟩ hs
      · rfl

theorem C18_witness :
    ('}' ∉ "RESULT".toList ∧
      ¬ ∃ n r : List Char, '}' ∉ n ∧ '$' :: '{' :: "RESULT".toList = '$' :: '{' :: (n ++ '}' :: r)) ∧
    parse_environment_variable main_env ('$' :: '{' :: ("RESULT".toList ++ '}' :: ['x']))
      = (some "Success".toList, 8) ∧
    parse_environment_variable empty_env ('$' :: '{' :: ("RESULT".toList ++ '}' :: ['x']))
      = (none, 8) ∧
    parse_environment_variable main_env ('$' :: '{' :: "RESULT".toList) = (none, 0) := by
  have hno : ¬ ∃ n r : List Char, '}' ∉ n ∧
      '$' :: '{' :: "RESULT".toList = '$' :: '{' :: (n ++ '}' :: r) := by
    rintro ⟨n, r, -, h⟩
    have h2 : "RESULT".toList = n ++ '}' :: r := by simpa using h
    have hm : '}' ∈ "RESULT".toList := by rw [h2]; simp
    exact absurd hm (by decide)
  refine ⟨⟨by decide, hno⟩, ?_, ?_, ?_⟩
  · exact (C18_parse_environment_variable_contract main_env _).1 "RESULT".toList ['x']
      (by decide) rfl
  · exact (C18_parse_environment_variable_contract empty_env _).1 "RESULT".toList ['x']
      (by decide) rfl
  · exact (C18_parse_environment_variable_contract main_env _).2 hno

/-- C20: the bounded buffer never drops a character. For every input, lookup
and initial content of the local buffer, the invariant `ix < MAX_STRING` and
`data[ix] = NUL` holds at the start of every iteration of the scan loop and
after the loop; in every iteration the buffer that `append` receives has
`ix < MAX_STRING`, so `append` stores the character at `data[ix]`, and its
writes at `ix` and `ix + 1` lie inside the array of `MAX_STRING + 1` bytes.
Wherever `endp` lies, the buffers of the loop bounded by `endp` are the first
of these buffers, and the last of them is the buffer after that loop. -/
theorem C20_bounded_buffer_invariant (getenv : List Char → Option (List Char))
    (buf0 : MIT.string_t) (str : List Char) :
    (∀ b ∈ MIT.iteration_bufs getenv str none (MIT.clear buf0),
        MIT.buf_invariant b ∧
        ∀ (c : Char) (cs : List Char) (result : Option (List Char)),
          (MIT.expand_trigger getenv c cs result b).2.2.1.ix < MIT.MAX_STRING ∧
          (MIT.expand_trigger getenv c cs result b).2.2.1.ix + 1
            < (MIT.expand_trigger getenv c cs result b).2.2.1.data.length ∧
          (MIT.expand_trigger getenv c cs result b).2.2.1.data.length = MIT.MAX_STRING + 1 ∧
          (MIT.append (MIT.expand_trigger getenv c cs result b).2.2.1 c).ix
            = (MIT.expand_trigger getenv c cs result b).2.2.1.ix + 1 ∧
          (MIT.append (MIT.expand_trigger getenv c cs result b).2.2.1 c).data[
              (MIT.expand_trigger getenv c cs result b).2.2.1.ix]? = some c) ∧
      (MIT.iteration_bufs getenv str none (MIT.clear buf0)).getLast?
        = some (MIT.expand_loop getenv str none (MIT.clear buf0)).2 ∧
      MIT.buf_invariant (MIT.expand_loop getenv str none (MIT.clear buf0)).2 ∧
      (∀ n : Nat,
        MIT.iteration_bufs_until getenv n str none (MIT.clear buf0)
          <+: MIT.iteration_bufs getenv str none (MIT.clear buf0) ∧
        (MIT.iteration_bufs_until getenv n str none (MIT.clear buf0)).getLast?
          = some (MIT.expand_loop_until getenv n str none (MIT.clear buf0)).2 ∧
        MIT.buf_invariant (MIT.expand_loop_until getenv n str none (MIT.clear buf0)).2) := by
  have hall := MIT.invariant_iteration_bufs getenv str none _ (MIT.invariant_clear buf0)
  refine ⟨fun b hb => ?_, MIT.iteration_bufs_getLast getenv str none _,
    MIT.invariant_expand_loop getenv str none _ (MIT.invariant_clear buf0), fun n => ?_⟩
  · have hinv := hall b hb
    refine ⟨hinv, fun c cs result => ?_⟩
    have ht := MIT.invariant_expand_trigger getenv c cs result b hinv
    obtain ⟨h1, h2, h3, -⟩ := MIT.invariant_append _ c ht
    exact ⟨ht.1, h1, (MIT.expand_trigger getenv c cs result b).2.2.1.size, h2, h3⟩
  · have hpre := MIT.iteration_bufs_until_prefix getenv n str none (MIT.clear buf0)
    have hlast := MIT.iteration_bufs_until_getLast getenv n str none (MIT.clear buf0)
    exact ⟨hpre, hlast, hall _ (hpre.subset (List.mem_of_getLast?_eq_some hlast))⟩

theorem C20_witness :
    MIT.clear stack_buf ∈ MIT.iteration_bufs main_env ['a', 'b'] none (MIT.clear stack_buf) ∧
    MIT.buf_invariant (MIT.clear stack_buf) ∧
    MIT.buf_invariant (MIT.expand_loop main_env ['a', 'b'] none (MIT.clear stack_buf)).2 := by
  have h := C20_bounded_buffer_invariant main_env stack_buf ['a', 'b']
  have hmem : MIT.clear stack_buf
      ∈ MIT.iteration_bufs main_env ['a', 'b'] none (MIT.clear stack_buf) := by
    rw [MIT.iteration_bufs]
    exact List.mem_cons_self _ _
  exact ⟨hmem, (h.1 _ hmem).1, h.2.2.1⟩

end StringExpand
